import Mathlib

/-!
Verification of the Canary API gateway (Go sources).

This file gives a shallow embedding of the components the specification
talks about: the token-bucket rate limiter, the per-key bucket map, the
rate-limit middleware, the concurrency semaphore and throttle middleware,
the gzip middleware, and the retrying reverse-proxy transport, together
with theorems settling the specification's claims about them.

Go `float64` quantities (rates, bursts, token counts) and instants are
modelled as exact rationals; `time.Duration` values are modelled as
integer nanoseconds.
-/

namespace Canary

/-! ## Token bucket (internal/middleware/middleware.go, lines 217-270) -/

/-- The mutable state of a `TokenBucket` (the mutex is implicit: calls are
modelled as atomic state transitions). -/
structure TokenBucket where
  rate : ℚ
  burst : ℚ
  tokens : ℚ
  last : ℚ
  ttl : ℚ
  lastSeen : ℚ
deriving Repr, DecidableEq

/-- `NewTokenBucket` (middleware.go lines 228-244): `rate <= 0` is replaced
by `1`, `burst < 1` is replaced by `1`, and `tokens` starts at `burst`;
`now` is the construction instant (`time.Now()`). -/
def NewTokenBucket (rate burst ttl now : ℚ) : TokenBucket :=
  { rate := if rate ≤ 0 then 1 else rate
    burst := if burst < 1 then 1 else burst
    tokens := if burst < 1 then 1 else burst
    last := now
    ttl := ttl
    lastSeen := now }

/-- Result of one `allow` call: the verdict and the updated bucket. -/
structure AllowResult where
  admitted : Bool
  bucket : TokenBucket
deriving Repr, DecidableEq

/-- `TokenBucket.allow` (middleware.go lines 246-263): refill when
`elapsed = now - last` is positive (capped at `burst`), unconditionally
stamp `lastSeen`, then admit (deducting one token) iff `tokens >= 1`. -/
def TokenBucket.allow (b : TokenBucket) (now : ℚ) : AllowResult :=
  let elapsed := now - b.last
  let b1 := if elapsed > 0 then
      { b with tokens := min b.burst (b.tokens + elapsed * b.rate), last := now }
    else b
  let b2 := { b1 with lastSeen := now }
  if b2.tokens ≥ 1 then
    ⟨true, { b2 with tokens := b2.tokens - 1 }⟩
  else
    ⟨false, b2⟩

/-- Fold a sequence of `allow` calls, keeping only the final bucket. -/
def runAllow (b : TokenBucket) (ts : List ℚ) : TokenBucket :=
  ts.foldl (fun s t => (s.allow t).bucket) b

/-- Number of admitted calls whose timestamp lies in the window `[a, c]`,
over a sequence of `allow` calls starting from bucket `b`. -/
def admitsIn (a c : ℚ) (b : TokenBucket) : List ℚ → ℕ
  | [] => 0
  | t :: ts =>
    let r := b.allow t
    (if r.admitted ∧ a ≤ t ∧ t ≤ c then 1 else 0) + admitsIn a c r.bucket ts

/-- The refilled token count used by `allow` when time has advanced. -/
def refilled (b : TokenBucket) (now : ℚ) : ℚ :=
  min b.burst (b.tokens + (now - b.last) * b.rate)

/-- The token count available to the admission test of one `allow(now)` call:
the post-refill count when time advanced, the stored count otherwise. -/
def refilledTokens (b : TokenBucket) (now : ℚ) : ℚ :=
  if 0 < now - b.last then refilled b now else b.tokens

/-- Potential function bounding the number of admissions a bucket can still
grant at timestamps inside the window `[a, c]`. -/
def bval (a c : ℚ) (s : TokenBucket) : ℚ :=
  if a ≤ s.last then s.tokens + s.rate * max (c - s.last) 0
  else s.burst + s.rate * (c - a)

/-! ## Per-key buckets and the rate-limit stage (middleware.go lines 272-368) -/

/-- The per-key limiter: a map from client key to bucket plus the parameters
used to create missing buckets (the background sweeper only evicts idle
entries and is not involved in any claim below). -/
structure PerKeyTokenBucket where
  buckets : List (String × TokenBucket)
  rate : ℚ
  burst : ℚ
  ttl : ℚ
deriving Repr, DecidableEq

/-- Store an updated bucket back under its key (the Go map holds pointers,
so mutating a bucket updates the map entry in place). -/
def updateAssoc (key : String) (v : TokenBucket) :
    List (String × TokenBucket) → List (String × TokenBucket)
  | [] => []
  | (k, b) :: rest =>
    if k = key then (k, v) :: rest else (k, b) :: updateAssoc key v rest

/-- `PerKeyTokenBucket.allow` via `get` (middleware.go lines 293-307): look
up the key's bucket, creating it with the configured parameters on first
use, and delegate to `TokenBucket.allow`. -/
def PerKeyTokenBucket.allow (p : PerKeyTokenBucket) (key : String) (now : ℚ) :
    Bool × PerKeyTokenBucket :=
  match p.buckets.lookup key with
  | some b =>
    let r := b.allow now
    (r.admitted, { p with buckets := updateAssoc key r.bucket p.buckets })
  | none =>
    let r := (NewTokenBucket p.rate p.burst p.ttl now).allow now
    (r.admitted, { p with buckets := (key, r.bucket) :: p.buckets })

/-- A reply written by the gateway itself (status, optional `Retry-After`
header value, body text). -/
structure HttpReply where
  status : ℕ
  retryAfter : Option String
  body : String
deriving Repr, DecidableEq

/-- Outcome of the rate-limit stage: the updated buckets and either a
short-circuit reply or (`reply = none`) admission to the inner handler. -/
structure RateLimitOutcome where
  reply : Option HttpReply
  global : TokenBucket
  perIP : PerKeyTokenBucket
deriving Repr, DecidableEq

/-- `WithRateLimit` (middleware.go lines 330-368): the global bucket is
consulted first; on deny, reply 429 with `Retry-After: 1` and the global
body without touching the per-key state; otherwise the per-key bucket for
the extracted client key (`"unknown"` when extraction yields the empty
string) is consulted with the same denial protocol. -/
def WithRateLimit (global : TokenBucket) (perIP : PerKeyTokenBucket)
    (clientIP : String) (now : ℚ) : RateLimitOutcome :=
  let ip := if clientIP = "" then "unknown" else clientIP
  let rg := global.allow now
  if !rg.admitted then
    { reply := some ⟨429, some "1", "rate limit exceeded (global)"⟩
      global := rg.bucket
      perIP := perIP }
  else
    let rp := perIP.allow ip now
    if !rp.1 then
      { reply := some ⟨429, some "1", "rate limit exceeded (per-ip)"⟩
        global := rg.bucket
        perIP := rp.2 }
    else
      { reply := none, global := rg.bucket, perIP := rp.2 }

/-! ## Concurrency gate (middleware.go lines 174-212) -/

/-- `NewSemaphore` (middleware.go lines 179-184): `max < 1` is clamped to 1;
the semaphore is a buffered channel with that capacity. -/
def NewSemaphoreCap (maxInFlight : ℤ) : ℕ :=
  if maxInFlight < 1 then 1 else maxInFlight.toNat

/-- One semaphore event in an interleaved schedule: a completed (blocking)
channel send on acquire, a non-blocking drain on release, or an acquire
abandoned because the request context was cancelled first. -/
inductive SemOp where
  | acq : SemOp
  | rel : SemOp
  | cancelled : SemOp
deriving Repr, DecidableEq

/-- Channel occupancy after one event: acquire sends (occupancy `+ 1`),
release drains non-blockingly (`n - 1`, a no-op at 0, exactly the
`select`/`default` in the source), a cancelled acquire leaves it unchanged. -/
def semStep (n : ℕ) : SemOp → ℕ
  | .acq => n + 1
  | .rel => n - 1
  | .cancelled => n

/-- Channel occupancy (the in-flight count) after a schedule of events. -/
def semCount (ops : List SemOp) : ℕ := ops.foldl semStep 0

/-- A schedule is channel-valid for capacity `cap` starting at occupancy `n`
when every completed acquire happens while the channel has free space (a
blocking send on a full channel cannot complete). -/
def semValid (cap : ℕ) : ℕ → List SemOp → Bool
  | _, [] => true
  | n, .acq :: rest => decide (n < cap) && semValid cap (n + 1) rest
  | n, .rel :: rest => semValid cap (n - 1) rest
  | n, .cancelled :: rest => semValid cap n rest

/-- How the inner handler finished. -/
inductive HandlerOutcome where
  | normal : HandlerOutcome
  | panicked : HandlerOutcome
deriving Repr, DecidableEq

/-- One request's trip through the throttle: the semaphore events it
contributes, the reply it short-circuits with (if any), whether the inner
handler was entered, and whether a panic escaped upward. -/
structure ThrottleRun where
  ops : List SemOp
  reply : Option HttpReply
  entered : Bool
  propagatedPanic : Bool
deriving Repr, DecidableEq

/-- `WithThrottle` (middleware.go lines 203-212) for a single request: a
failed acquire (context cancelled first) short-circuits with 408 "request
cancelled"; a successful acquire runs the inner handler with `release`
deferred, so the release happens on normal return and on panic alike. -/
def WithThrottle (acquired : Bool) (h : HandlerOutcome) : ThrottleRun :=
  if acquired then
    { ops := [.acq, .rel]
      reply := none
      entered := true
      propagatedPanic := match h with | .panicked => true | .normal => false }
  else
    { ops := [.cancelled]
      reply := some ⟨408, none, "request cancelled"⟩
      entered := false
      propagatedPanic := false }

/-! ## Gzip stage (middleware.go lines 23-58) -/

/-- Whether the first list occurs at the start of the second. -/
def startsWithChars : List Char → List Char → Bool
  | [], _ => true
  | _ :: _, [] => false
  | a :: as, b :: bs => a == b && startsWithChars as bs

/-- `strings.Contains`: `sub` occurs contiguously somewhere inside the
second list. -/
def containsSub (sub : List Char) : List Char → Bool
  | [] => sub.isEmpty
  | c :: rest => startsWithChars sub (c :: rest) || containsSub sub rest

/-- The gzip activation test exactly as the source performs it:
`strings.Contains(r.Header.Get("Accept-Encoding"), "gzip")`. -/
def acceptsGzipSubstr (acceptEncoding : String) : Bool :=
  containsSub "gzip".toList acceptEncoding.toList

/-- Split on commas, keeping every (possibly empty) piece. -/
def splitCommaAux : List Char → List Char → List (List Char)
  | acc, [] => [acc.reverse]
  | acc, ch :: rest =>
    if ch == ',' then acc.reverse :: splitCommaAux [] rest
    else splitCommaAux (ch :: acc) rest

/-- Drop spaces from both ends. -/
def trimSpaces (cs : List Char) : List Char :=
  ((cs.dropWhile (· == ' ')).reverse.dropWhile (· == ' ')).reverse

/-- Modelled from the spec's words, for comparison with the source's
substring test: the `Accept-Encoding` value, read as a comma-separated
list, has an element whose trimmed text is the token `gzip`. -/
def specContainsTokenGzip (acceptEncoding : String) : Bool :=
  (splitCommaAux [] acceptEncoding.toList).any fun e => trimSpaces e == "gzip".toList

/-- One action the inner handler takes on the response writer it was given. -/
inductive HAction where
  | write (bs : List ℕ) : HAction
  | writeHeader (code : ℕ) : HAction
deriving Repr, DecidableEq

/-- One effect reaching the real response writer / gzip encoder. -/
inductive WEvent where
  | setHeader (k v : String) : WEvent
  | delHeader (k : String) : WEvent
  | gzWrite (bs : List ℕ) : WEvent
  | rawWrite (bs : List ℕ) : WEvent
  | writeHeader (code : ℕ) : WEvent
  | gzClose : WEvent
deriving Repr, DecidableEq

/-- How the (possibly wrapped) writer maps one handler action to an effect:
`gzipResponseWriter.Write` goes through the encoder, its `WriteHeader`
passes straight through (middleware.go lines 52-58). -/
def interpAction (throughGzip : Bool) : HAction → WEvent
  | .write bs => if throughGzip then .gzWrite bs else .rawWrite bs
  | .writeHeader code => .writeHeader code

/-- `WithGzip` (middleware.go lines 23-45) on one request, as the list of
effects on the underlying response writer: when the substring test fails the
inner handler runs against the original writer; otherwise the stage sets
`Content-Encoding: gzip`, deletes `Content-Length`, wraps the writer, and
closes (flushes) the encoder when the handler returns. -/
def WithGzip (acceptEncoding : String) (handler : List HAction) : List WEvent :=
  if !acceptsGzipSubstr acceptEncoding then
    handler.map (interpAction false)
  else
    [.setHeader "Content-Encoding" "gzip", .delHeader "Content-Length"]
      ++ handler.map (interpAction true) ++ [.gzClose]

/-! ## Retrying transport (proxy source, lines 116-228) -/

/-- What one invocation of the wrapped transport produces. -/
inductive RTOutcome where
  | failure : RTOutcome
  | response (status : ℕ) : RTOutcome
deriving Repr, DecidableEq

/-- The request fields the retry wrapper inspects: the method, whether
`Body` is non-nil, whether `GetBody` is non-nil, and whether calling
`GetBody` succeeds. -/
structure Request where
  method : String
  hasBody : Bool
  hasGetBody : Bool
  getBodyOk : Bool
deriving Repr, DecidableEq

/-- `isIdempotent` (proxy source lines 119-126). -/
def isIdempotent : String → Bool
  | "GET" => true
  | "HEAD" => true
  | "OPTIONS" => true
  | "PUT" => true
  | "DELETE" => true
  | _ => false

/-- Observable step of the retry loop, tagged with the attempt index. -/
inductive RTEvent where
  | invoke (i : ℕ) : RTEvent
  | drainBody (i : ℕ) : RTEvent
  | closeBody (i : ℕ) : RTEvent
  | sleep (i : ℕ) : RTEvent
deriving Repr, DecidableEq

/-- What `RoundTrip` returns: the response of attempt `attempt`, the
transport error of attempt `attempt`, a `GetBody` error, or the synthetic
post-loop "proxy retry attempts exhausted" error. -/
inductive RTResult where
  | resp (attempt status : ℕ) : RTResult
  | err (attempt : ℕ) : RTResult
  | getBodyErr : RTResult
  | exhausted : RTResult
deriving Repr, DecidableEq

/-- The retry loop of `retryingRoundTripper.RoundTrip` (proxy source lines
147-203); `i` is the current attempt index and `fuel = attempts - i`
iterations remain (`exhausted` is the post-loop fallthrough). -/
def rtLoop (canRetry needsGetBody getBodyOk : Bool)
    (inner : ℕ → RTOutcome) (attempts : ℕ) : ℕ → ℕ → RTResult × List RTEvent
  | _, 0 => (.exhausted, [])
  | i, fuel + 1 =>
    if needsGetBody ∧ ¬getBodyOk then (.getBodyErr, [])
    else
      match inner i with
      | .failure =>
        if ¬canRetry ∨ i = attempts - 1 then (.err i, [.invoke i])
        else
          let rest := rtLoop canRetry needsGetBody getBodyOk inner attempts (i + 1) fuel
          (rest.1, .invoke i :: .sleep i :: rest.2)
      | .response s =>
        if 500 ≤ s ∧ s ≤ 599 ∧ canRetry ∧ i < attempts - 1 then
          let rest := rtLoop canRetry needsGetBody getBodyOk inner attempts (i + 1) fuel
          (rest.1, .invoke i :: .drainBody i :: .closeBody i :: .sleep i :: rest.2)
        else (.resp i s, [.invoke i])

/-- The effective attempt count of the loop (proxy source lines 136-139):
the configured value clamped below by 1. -/
def clampAttempts (attemptsCfg : ℤ) : ℕ :=
  if attemptsCfg < 1 then 1 else attemptsCfg.toNat

/-- The trace the retry loop produces when, starting at attempt `i` with the
given number of attempts remaining, every attempt returns a retryable 5xx:
each non-final attempt is invoked, drained, closed, slept after. -/
def retryTrace5xx : ℕ → ℕ → List RTEvent
  | _, 0 => []
  | i, 1 => [.invoke i]
  | i, k + 2 =>
    .invoke i :: .drainBody i :: .closeBody i :: .sleep i :: retryTrace5xx (i + 1) (k + 1)

/-- `retryingRoundTripper.RoundTrip` (proxy source lines 135-204):
`attemptsCfg` is the configured attempt count (clamped to at least 1);
`inner` gives the outcome of each invocation of the wrapped transport. A
non-idempotent request whose body cannot be replayed is forwarded once,
outside the loop. -/
def RoundTrip (attemptsCfg : ℤ) (req : Request) (inner : ℕ → RTOutcome) :
    RTResult × List RTEvent :=
  let attempts : ℕ := clampAttempts attemptsCfg
  let canRetry := isIdempotent req.method
  if ¬canRetry ∧ ¬req.hasGetBody ∧ req.hasBody then
    (match inner 0 with
      | .failure => RTResult.err 0
      | .response s => RTResult.resp 0 s,
     [.invoke 0])
  else
    rtLoop canRetry (req.hasBody && req.hasGetBody) req.getBodyOk inner attempts 0 attempts

/-- Eligibility for retry as the specification words it (its `can_retry`):
idempotent method and a body that is absent or replayable. -/
def specEligible (req : Request) : Bool :=
  isIdempotent req.method && (!req.hasBody || req.hasGetBody)

/-- Number of invocations of the wrapped transport recorded in a trace. -/
def countInvokes (evs : List RTEvent) : ℕ :=
  (evs.filter fun e => match e with | .invoke _ => true | _ => false).length

/-- `sleepBackoff`'s computed delay (proxy source lines 206-217), in
nanoseconds: defaults applied when the bounds are non-positive, then
`base * 2^attempt` capped at `max`. -/
def sleepDelay (baseDelay maxDelay : ℤ) (attempt : ℕ) : ℤ :=
  let baseD := if baseDelay ≤ 0 then 100000000 else baseDelay
  let maxD := if maxDelay ≤ 0 then 2000000000 else maxDelay
  let d := baseD * 2 ^ attempt
  if d > maxD then maxD else d

/-- The `select` over the backoff timer and the request context (proxy
source lines 219-227): the function returns when the earlier of the two
fires, so the time actually waited is the cancellation instant (clamped
below by 0, for contexts already done) when that precedes the timer, and
the full delay otherwise. `cancelAt` is the cancellation instant measured
from the start of the sleep, `none` for a context never cancelled. -/
def sleepWaited (cancelAt : Option ℤ) (baseDelay maxDelay : ℤ) (attempt : ℕ) : ℤ :=
  match cancelAt with
  | none => sleepDelay baseDelay maxDelay attempt
  | some tc => min (max tc 0) (sleepDelay baseDelay maxDelay attempt)

/-! ### Characterisation of one `allow` step -/

theorem allow_of_pos (b : TokenBucket) (now : ℚ) (h : b.last < now) :
    b.allow now =
      if refilled b now ≥ 1 then
        ⟨true, { b with tokens := refilled b now - 1, last := now, lastSeen := now }⟩
      else
        ⟨false, { b with tokens := refilled b now, last := now, lastSeen := now }⟩ := by
  have hpos : now - b.last > 0 := by linarith
  simp only [TokenBucket.allow, if_pos hpos, refilled]

theorem allow_of_nonpos (b : TokenBucket) (now : ℚ) (h : now ≤ b.last) :
    b.allow now =
      if b.tokens ≥ 1 then
        ⟨true, { b with tokens := b.tokens - 1, lastSeen := now }⟩
      else
        ⟨false, { b with lastSeen := now }⟩ := by
  have hnp : ¬ (now - b.last > 0) := by linarith
  simp only [TokenBucket.allow, if_neg hnp]

theorem allow_rate (b : TokenBucket) (now : ℚ) : ((b.allow now).bucket).rate = b.rate := by
  rcases le_or_lt now b.last with h | h
  · rw [allow_of_nonpos b now h]; split <;> rfl
  · rw [allow_of_pos b now h]; split <;> rfl

theorem allow_burst (b : TokenBucket) (now : ℚ) : ((b.allow now).bucket).burst = b.burst := by
  rcases le_or_lt now b.last with h | h
  · rw [allow_of_nonpos b now h]; split <;> rfl
  · rw [allow_of_pos b now h]; split <;> rfl

theorem allow_lastSeen (b : TokenBucket) (now : ℚ) :
    ((b.allow now).bucket).lastSeen = now := by
  rcases le_or_lt now b.last with h | h
  · rw [allow_of_nonpos b now h]; split <;> rfl
  · rw [allow_of_pos b now h]; split <;> rfl

theorem allow_tokens_nonneg (b : TokenBucket) (now : ℚ)
    (hr : 0 ≤ b.rate) (hB : 0 ≤ b.burst) (h0 : 0 ≤ b.tokens) :
    0 ≤ ((b.allow now).bucket).tokens := by
  rcases le_or_lt now b.last with h | h
  · rw [allow_of_nonpos b now h]
    by_cases htk : b.tokens ≥ 1
    · rw [if_pos htk]; simp only; linarith
    · rw [if_neg htk]; simpa using h0
  · rw [allow_of_pos b now h]
    have hadd : 0 ≤ b.tokens + (now - b.last) * b.rate := by
      have : 0 ≤ (now - b.last) * b.rate := mul_nonneg (by linarith) hr
      linarith
    by_cases htk : refilled b now ≥ 1
    · rw [if_pos htk]; simp only; linarith
    · rw [if_neg htk]; simp only [refilled]
      exact le_min hB hadd

theorem allow_tokens_le_burst (b : TokenBucket) (now : ℚ)
    (hB : b.tokens ≤ b.burst) :
    ((b.allow now).bucket).tokens ≤ b.burst := by
  rcases le_or_lt now b.last with h | h
  · rw [allow_of_nonpos b now h]
    by_cases htk : b.tokens ≥ 1
    · rw [if_pos htk]; simp only; linarith
    · rw [if_neg htk]; simpa using hB
  · rw [allow_of_pos b now h]
    have hm : refilled b now ≤ b.burst := min_le_left _ _
    by_cases htk : refilled b now ≥ 1
    · rw [if_pos htk]; simp only; linarith
    · rw [if_neg htk]; simpa using hm

theorem allow_last_mono (b : TokenBucket) (now : ℚ) :
    b.last ≤ ((b.allow now).bucket).last := by
  rcases le_or_lt now b.last with h | h
  · rw [allow_of_nonpos b now h]; split <;> simp
  · rw [allow_of_pos b now h]; split <;> simp <;> linarith

/-! ### The window bound on admitted calls -/

theorem bval_nonneg (a c : ℚ) (hac : a ≤ c) (s : TokenBucket)
    (hr : 0 ≤ s.rate) (h0 : 0 ≤ s.tokens) (hB : 0 ≤ s.burst) : 0 ≤ bval a c s := by
  unfold bval; split
  · have : 0 ≤ s.rate * max (c - s.last) 0 := mul_nonneg hr (le_max_right _ _)
    linarith
  · have : 0 ≤ s.rate * (c - a) := mul_nonneg hr (by linarith)
    linarith

theorem bval_le (a c : ℚ) (hac : a ≤ c) (s : TokenBucket)
    (hr : 0 ≤ s.rate) (hB : s.tokens ≤ s.burst) :
    bval a c s ≤ s.burst + s.rate * (c - a) := by
  unfold bval; split_ifs with haL
  · have hmax : max (c - s.last) 0 ≤ c - a := by
      apply max_le <;> linarith
    have := mul_le_mul_of_nonneg_left hmax hr
    linarith
  · linarith

/-- One `allow` step can only lower the potential, counting an in-window
admission as one unit. -/
theorem step_bval (a c t : ℚ) (htc : t ≤ c) (s : TokenBucket)
    (hr : 0 ≤ s.rate) (h0 : 0 ≤ s.tokens) (hB : s.tokens ≤ s.burst) :
    (if (s.allow t).admitted ∧ a ≤ t ∧ t ≤ c then (1:ℚ) else 0)
        + bval a c ((s.allow t).bucket) ≤ bval a c s := by
  have hmin1 : refilled s t ≤ s.burst := min_le_left _ _
  have hmin2 : refilled s t ≤ s.tokens + (t - s.last) * s.rate := min_le_right _ _
  by_cases hLt : s.last < t
  · have hmax_t : max (c - t) 0 = c - t := max_eq_left (by linarith)
    by_cases hR : refilled s t ≥ 1
    · have hstep : s.allow t =
          ⟨true, { s with tokens := refilled s t - 1, last := t, lastSeen := t }⟩ := by
        rw [allow_of_pos s t hLt, if_pos hR]
      rw [hstep]
      by_cases hat : a ≤ t
      · rw [if_pos ⟨rfl, hat, htc⟩]
        simp only [bval, hmax_t]
        rw [if_pos hat]
        by_cases haL : a ≤ s.last
        · rw [if_pos haL]
          have hmaxL : max (c - s.last) 0 = c - s.last := max_eq_left (by linarith)
          rw [hmaxL]
          have hring : (t - s.last) * s.rate + s.rate * (c - t) = s.rate * (c - s.last) := by
            ring
          linarith
        · rw [if_neg haL]
          have hmul : s.rate * (c - t) ≤ s.rate * (c - a) :=
            mul_le_mul_of_nonneg_left (by linarith) hr
          linarith
      · rw [if_neg (fun hcon => hat hcon.2.1)]
        have haL : ¬ a ≤ s.last := fun hcon => hat (le_trans hcon (le_of_lt hLt))
        simp only [bval]
        rw [if_neg hat, if_neg haL]
        linarith
    · have hstep : s.allow t =
          ⟨false, { s with tokens := refilled s t, last := t, lastSeen := t }⟩ := by
        rw [allow_of_pos s t hLt, if_neg hR]
      rw [hstep]
      rw [if_neg (fun hcon => nomatch hcon.1)]
      by_cases hat : a ≤ t
      · simp only [bval, hmax_t]
        rw [if_pos hat]
        by_cases haL : a ≤ s.last
        · rw [if_pos haL]
          have hmaxL : max (c - s.last) 0 = c - s.last := max_eq_left (by linarith)
          rw [hmaxL]
          have hring : (t - s.last) * s.rate + s.rate * (c - t) = s.rate * (c - s.last) := by
            ring
          linarith
        · rw [if_neg haL]
          have hmul : s.rate * (c - t) ≤ s.rate * (c - a) :=
            mul_le_mul_of_nonneg_left (by linarith) hr
          linarith
      · have haL : ¬ a ≤ s.last := fun hcon => hat (le_trans hcon (le_of_lt hLt))
        simp only [bval]
        rw [if_neg hat, if_neg haL]
        linarith
  · have hle : t ≤ s.last := not_lt.1 hLt
    by_cases htk : s.tokens ≥ 1
    · have hstep : s.allow t = ⟨true, { s with tokens := s.tokens - 1, lastSeen := t }⟩ := by
        rw [allow_of_nonpos s t hle, if_pos htk]
      rw [hstep]
      by_cases hat : a ≤ t
      · rw [if_pos ⟨rfl, hat, htc⟩]
        have haL : a ≤ s.last := le_trans hat hle
        simp only [bval]
        rw [if_pos haL, if_pos haL]
        linarith
      · rw [if_neg (fun hcon => hat hcon.2.1)]
        simp only [bval]
        by_cases haL : a ≤ s.last
        · rw [if_pos haL, if_pos haL]; linarith
        · rw [if_neg haL, if_neg haL]; linarith
    · have hstep : s.allow t = ⟨false, { s with lastSeen := t }⟩ := by
        rw [allow_of_nonpos s t hle, if_neg htk]
      rw [hstep]
      rw [if_neg (fun hcon => nomatch hcon.1)]
      have hbk : bval a c { s with lastSeen := t } = bval a c s := by
        simp only [bval]
      rw [hbk]
      linarith

/-- If every timestamp is past the window's right end, nothing is counted. -/
theorem admitsIn_zero_of_forall_gt (a c : ℚ) :
    ∀ (ts : List ℚ) (s : TokenBucket), (∀ t ∈ ts, c < t) → admitsIn a c s ts = 0 := by
  intro ts
  induction ts with
  | nil => intro s _; rfl
  | cons t ts ih =>
    intro s h
    have hhead : c < t := h t (List.mem_cons_self t ts)
    simp only [admitsIn]
    rw [if_neg (fun hcon => absurd hcon.2.2 (not_le.2 hhead)),
      ih _ (fun u hu => h u (List.mem_cons_of_mem t hu))]

/-- Main induction: the in-window admitted count is bounded by the potential. -/
theorem admitsIn_le_bval (a c : ℚ) (hac : a ≤ c) :
    ∀ ts : List ℚ, List.Sorted (· ≤ ·) ts → ∀ s : TokenBucket,
      0 ≤ s.rate → 0 ≤ s.tokens → s.tokens ≤ s.burst →
      (admitsIn a c s ts : ℚ) ≤ bval a c s := by
  intro ts
  induction ts with
  | nil =>
    intro _ s hr h0 hB
    simpa [admitsIn] using bval_nonneg a c hac s hr h0 (le_trans h0 hB)
  | cons t ts ih =>
    intro hsort s hr h0 hB
    have hsort' : List.Sorted (· ≤ ·) ts := hsort.of_cons
    rcases le_or_lt t c with htc | htc
    · have htail : (admitsIn a c ((s.allow t).bucket) ts : ℚ) ≤ bval a c ((s.allow t).bucket) := by
        apply ih hsort'
        · rw [allow_rate]; exact hr
        · exact allow_tokens_nonneg s t hr (le_trans h0 hB) h0
        · rw [allow_burst]; exact allow_tokens_le_burst s t hB
      have hstep := step_bval a c t htc s hr h0 hB
      have hcast : ((if (s.allow t).admitted ∧ a ≤ t ∧ t ≤ c then 1 else 0 : ℕ) : ℚ)
          = (if (s.allow t).admitted ∧ a ≤ t ∧ t ≤ c then (1:ℚ) else 0) := by
        split <;> norm_num
      simp only [admitsIn]
      push_cast [hcast]
      linarith [htail, hstep]
    · have hall : ∀ u ∈ t :: ts, c < u := by
        intro u hu
        rcases List.mem_cons.1 hu with rfl | hu
        · exact htc
        · exact lt_of_lt_of_le htc (List.rel_of_sorted_cons hsort u hu)
      rw [admitsIn_zero_of_forall_gt a c (t :: ts) s hall]
      simpa using bval_nonneg a c hac s hr h0 (le_trans h0 hB)

/-! ### Facts about the constructor and folded sequences -/

theorem newTokenBucket_rate_pos (rate burst ttl now : ℚ) :
    0 < (NewTokenBucket rate burst ttl now).rate := by
  simp only [NewTokenBucket]
  split_ifs with h
  · norm_num
  · push_neg at h; exact h

theorem newTokenBucket_burst_ge_one (rate burst ttl now : ℚ) :
    1 ≤ (NewTokenBucket rate burst ttl now).burst := by
  simp only [NewTokenBucket]
  split_ifs with h
  · norm_num
  · push_neg at h; exact h

theorem newTokenBucket_tokens_eq_burst (rate burst ttl now : ℚ) :
    (NewTokenBucket rate burst ttl now).tokens = (NewTokenBucket rate burst ttl now).burst := rfl

theorem runAllow_rate (ts : List ℚ) : ∀ b : TokenBucket, (runAllow b ts).rate = b.rate := by
  induction ts with
  | nil => intro b; rfl
  | cons t ts ih =>
    intro b
    have hrw : runAllow b (t :: ts) = runAllow ((b.allow t).bucket) ts := rfl
    rw [hrw, ih, allow_rate]

theorem runAllow_burst (ts : List ℚ) : ∀ b : TokenBucket, (runAllow b ts).burst = b.burst := by
  induction ts with
  | nil => intro b; rfl
  | cons t ts ih =>
    intro b
    have hrw : runAllow b (t :: ts) = runAllow ((b.allow t).bucket) ts := rfl
    rw [hrw, ih, allow_burst]

theorem runAllow_last_mono (ts : List ℚ) : ∀ b : TokenBucket, b.last ≤ (runAllow b ts).last := by
  induction ts with
  | nil => intro b; exact le_refl _
  | cons t ts ih =>
    intro b
    have hrw : runAllow b (t :: ts) = runAllow ((b.allow t).bucket) ts := rfl
    rw [hrw]
    exact le_trans (allow_last_mono b t) (ih _)

theorem runAllow_tokens_inv (ts : List ℚ) : ∀ b : TokenBucket, 0 ≤ b.rate → 0 ≤ b.burst →
    0 ≤ b.tokens → b.tokens ≤ b.burst →
    0 ≤ (runAllow b ts).tokens ∧ (runAllow b ts).tokens ≤ b.burst := by
  induction ts with
  | nil => intro b _ _ h0 hB; exact ⟨h0, hB⟩
  | cons t ts ih =>
    intro b hr hB0 h0 hB
    have h1 := allow_tokens_nonneg b t hr hB0 h0
    have h2 := allow_tokens_le_burst b t hB
    have hrec := ih ((b.allow t).bucket) (by rw [allow_rate]; exact hr)
      (by rw [allow_burst]; exact hB0) h1 (by rw [allow_burst]; exact h2)
    have hrw : runAllow b (t :: ts) = runAllow ((b.allow t).bucket) ts := rfl
    rw [hrw]
    refine ⟨hrec.1, ?_⟩
    have := hrec.2
    rwa [allow_burst] at this

theorem allow_admitted_iff (b : TokenBucket) (now : ℚ) :
    (b.allow now).admitted = true ↔ 1 ≤ refilledTokens b now := by
  rcases le_or_lt now b.last with h | h
  · rw [allow_of_nonpos b now h]
    have hnp : ¬ (0 < now - b.last) := by linarith
    rw [refilledTokens, if_neg hnp]
    by_cases htk : b.tokens ≥ 1
    · rw [if_pos htk]; simpa using htk
    · rw [if_neg htk]; simpa using htk
  · rw [allow_of_pos b now h]
    have hp : 0 < now - b.last := by linarith
    rw [refilledTokens, if_pos hp]
    by_cases htk : refilled b now ≥ 1
    · rw [if_pos htk]; simpa using htk
    · rw [if_neg htk]; simpa using htk

theorem allow_tokens_eq (b : TokenBucket) (now : ℚ) :
    ((b.allow now).bucket).tokens =
      (if 1 ≤ refilledTokens b now then refilledTokens b now - 1 else refilledTokens b now) := by
  rcases le_or_lt now b.last with h | h
  · rw [allow_of_nonpos b now h]
    have hnp : ¬ (0 < now - b.last) := by linarith
    rw [refilledTokens, if_neg hnp]
    by_cases htk : b.tokens ≥ 1
    · rw [if_pos htk, if_pos htk]
    · rw [if_neg htk, if_neg htk]
  · rw [allow_of_pos b now h]
    have hp : 0 < now - b.last := by linarith
    rw [refilledTokens, if_pos hp]
    by_cases htk : refilled b now ≥ 1
    · rw [if_pos htk, if_pos htk]
    · rw [if_neg htk, if_neg htk]

theorem allow_last_of_pos (b : TokenBucket) (now : ℚ) (h : 0 < now - b.last) :
    ((b.allow now).bucket).last = now := by
  rw [allow_of_pos b now (by linarith)]
  split <;> rfl

theorem allow_last_of_nonpos (b : TokenBucket) (now : ℚ) (h : ¬ 0 < now - b.last) :
    ((b.allow now).bucket).last = b.last := by
  rw [allow_of_nonpos b now (by linarith)]
  split <;> rfl

/-! ## Claims about the token bucket -/

/-- C4, counterexample: construction does not clamp `rate` to at least 1 —
`NewTokenBucket(0.5, 5, ...)` keeps `rate = 0.5 < 1` (the source only
replaces a rate that is `<= 0`). -/
theorem newTokenBucket_rate_clamp_fails : (NewTokenBucket (1/2) 5 0 0).rate < 1 := by
  norm_num [NewTokenBucket]

/-- C4 (amended): construction replaces a nonpositive `rate` by 1 (leaving
any positive rate, even one below 1, unchanged), clamps `burst` to at least
1, and initialises `tokens = burst`; each `allow(now)` call refills
`tokens` to `min(burst, tokens + (now-last)*rate)` and advances `last` to
`now` exactly when `now - last` is positive, always stamps
`lastSeen = now`, and admits — deducting exactly one token — iff the
refilled count is at least 1, leaving it undeducted on deny. -/
theorem tokenBucket_construction_allow_spec (rate burst ttl now0 : ℚ)
    (b : TokenBucket) (t : ℚ) :
    0 < (NewTokenBucket rate burst ttl now0).rate ∧
    (rate ≤ 0 → (NewTokenBucket rate burst ttl now0).rate = 1) ∧
    (0 < rate → (NewTokenBucket rate burst ttl now0).rate = rate) ∧
    1 ≤ (NewTokenBucket rate burst ttl now0).burst ∧
    (burst < 1 → (NewTokenBucket rate burst ttl now0).burst = 1) ∧
    (1 ≤ burst → (NewTokenBucket rate burst ttl now0).burst = burst) ∧
    (NewTokenBucket rate burst ttl now0).tokens = (NewTokenBucket rate burst ttl now0).burst ∧
    (0 < t - b.last → (b.allow t).bucket.last = t ∧
      refilledTokens b t = min b.burst (b.tokens + (t - b.last) * b.rate)) ∧
    (¬ 0 < t - b.last → (b.allow t).bucket.last = b.last ∧ refilledTokens b t = b.tokens) ∧
    (b.allow t).bucket.lastSeen = t ∧
    ((b.allow t).admitted = true ↔ 1 ≤ refilledTokens b t) ∧
    (b.allow t).bucket.tokens =
      (if 1 ≤ refilledTokens b t then refilledTokens b t - 1 else refilledTokens b t) := by
  refine ⟨newTokenBucket_rate_pos rate burst ttl now0, ?_, ?_,
    newTokenBucket_burst_ge_one rate burst ttl now0, ?_, ?_,
    newTokenBucket_tokens_eq_burst rate burst ttl now0, ?_, ?_,
    allow_lastSeen b t, allow_admitted_iff b t, allow_tokens_eq b t⟩
  · intro h; simp only [NewTokenBucket]; exact if_pos h
  · intro h; simp only [NewTokenBucket]; exact if_neg (not_le.2 h)
  · intro h; simp only [NewTokenBucket]; exact if_pos h
  · intro h; simp only [NewTokenBucket]; exact if_neg (not_lt.2 h)
  · intro h
    exact ⟨allow_last_of_pos b t h, by rw [refilledTokens, if_pos h, refilled]⟩
  · intro h
    exact ⟨allow_last_of_nonpos b t h, by rw [refilledTokens, if_neg h]⟩

/-- Witness for the amended C4 at concrete inputs. -/
theorem tokenBucket_construction_allow_spec_witness :
    (0:ℚ) < 2 ∧ (1:ℚ) ≤ 3 ∧ (0:ℚ) < 1 - (NewTokenBucket 2 3 0 0).last ∧
      (NewTokenBucket 2 3 0 0).rate = 2 ∧ (NewTokenBucket 2 3 0 0).burst = 3 ∧
      ((NewTokenBucket 2 3 0 0).allow 1).bucket.last = 1 := by
  have h := tokenBucket_construction_allow_spec 2 3 0 0 (NewTokenBucket 2 3 0 0) 1
  have hpos : (0:ℚ) < 1 - (NewTokenBucket 2 3 0 0).last := by norm_num [NewTokenBucket]
  exact ⟨by norm_num, by norm_num, hpos, h.2.2.1 (by norm_num),
    h.2.2.2.2.2.1 (by norm_num), (h.2.2.2.2.2.2.2.1 hpos).1⟩

/-- C5: for a single bucket and any monotone nondecreasing timestamp
sequence, the number of admitted calls with timestamps in the window
`[a, c]` is at most `burst + rate * (c - a)` (with the bucket's effective
`rate` and `burst` fields). -/
theorem window_admitted_count_bound (rate burst ttl t0 a c : ℚ) (ts : List ℚ)
    (hsort : List.Sorted (· ≤ ·) ts) (hac : a ≤ c) :
    (admitsIn a c (NewTokenBucket rate burst ttl t0) ts : ℚ)
      ≤ (NewTokenBucket rate burst ttl t0).burst
        + (NewTokenBucket rate burst ttl t0).rate * (c - a) := by
  have hr := le_of_lt (newTokenBucket_rate_pos rate burst ttl t0)
  have hB1 := newTokenBucket_burst_ge_one rate burst ttl t0
  have h1 := admitsIn_le_bval a c hac ts hsort (NewTokenBucket rate burst ttl t0) hr
    (by rw [newTokenBucket_tokens_eq_burst]; linarith)
    (by rw [newTokenBucket_tokens_eq_burst])
  have h2 := bval_le a c hac (NewTokenBucket rate burst ttl t0) hr
    (by rw [newTokenBucket_tokens_eq_burst])
  linarith

/-- Witness for C5 at concrete inputs. -/
theorem window_admitted_count_bound_witness :
    List.Sorted (· ≤ ·) ([0, 0, 1] : List ℚ) ∧ (0:ℚ) ≤ 2 ∧
      (admitsIn 0 2 (NewTokenBucket 1 1 0 0) [0, 0, 1] : ℚ)
        ≤ (NewTokenBucket 1 1 0 0).burst + (NewTokenBucket 1 1 0 0).rate * (2 - 0) := by
  have hs : List.Sorted (· ≤ ·) ([0, 0, 1] : List ℚ) := by
    simp [List.sorted_cons]
  exact ⟨hs, by norm_num, window_admitted_count_bound 1 1 0 0 0 2 [0, 0, 1] hs (by norm_num)⟩

/-- C6: for every bucket built by `NewTokenBucket` and every sequence of
`allow` calls at arbitrary (not necessarily monotone) timestamps, `tokens`
lies in `[0, burst]` immediately after each call (`ts` ranges over all call
sequences, so every intermediate state is the final state of some `ts`). -/
theorem tokens_in_range_after_any_sequence (rate burst ttl t0 : ℚ) (ts : List ℚ) :
    0 ≤ (runAllow (NewTokenBucket rate burst ttl t0) ts).tokens ∧
      (runAllow (NewTokenBucket rate burst ttl t0) ts).tokens
        ≤ (NewTokenBucket rate burst ttl t0).burst := by
  have hB1 := newTokenBucket_burst_ge_one rate burst ttl t0
  apply runAllow_tokens_inv
  · exact le_of_lt (newTokenBucket_rate_pos rate burst ttl t0)
  · linarith
  · rw [newTokenBucket_tokens_eq_burst]; linarith
  · rw [newTokenBucket_tokens_eq_burst]

/-- C10: a clock regression (`now <= last`) performs no refill and leaves
`last` unchanged — and `last` is monotone nondecreasing across any single
call and any folded sequence of calls — while `lastSeen` is unconditionally
overwritten with `now`, which can move `lastSeen` backwards in time
(witnessed concretely by calls at times 5 then 3). -/
theorem clock_regression_behaviour (b : TokenBucket) (t : ℚ) (ts : List ℚ) :
    (t ≤ b.last →
      (b.allow t).bucket.last = b.last ∧
        (b.allow t).bucket.tokens = (if b.tokens ≥ 1 then b.tokens - 1 else b.tokens)) ∧
    b.last ≤ (b.allow t).bucket.last ∧
    b.last ≤ (runAllow b ts).last ∧
    (b.allow t).bucket.lastSeen = t ∧
    (((NewTokenBucket 1 1 0 0).allow 5).bucket.allow 3).bucket.lastSeen
      < ((NewTokenBucket 1 1 0 0).allow 5).bucket.lastSeen := by
  refine ⟨?_, allow_last_mono b t, runAllow_last_mono ts b, allow_lastSeen b t, ?_⟩
  · intro h
    refine ⟨allow_last_of_nonpos b t (by linarith), ?_⟩
    rw [allow_of_nonpos b t h]
    by_cases htk : b.tokens ≥ 1
    · rw [if_pos htk, if_pos htk]
    · rw [if_neg htk, if_neg htk]
  · rw [allow_lastSeen, allow_lastSeen]
    norm_num

/-- Witness for C10 at concrete inputs. -/
theorem clock_regression_behaviour_witness :
    (3:ℚ) ≤ (NewTokenBucket 1 1 0 5).last ∧
      ((NewTokenBucket 1 1 0 5).allow 3).bucket.last = (NewTokenBucket 1 1 0 5).last := by
  have h := clock_regression_behaviour (NewTokenBucket 1 1 0 5) 3 []
  have h3 : (3:ℚ) ≤ (NewTokenBucket 1 1 0 5).last := by norm_num [NewTokenBucket]
  exact ⟨h3, (h.1 h3).1⟩

/-! ## Claims about the rate-limit stage -/

/-- C3: the global bucket is evaluated first — on global deny the stage
replies 429 with `Retry-After: 1` and the "(global)" body, and the per-key
state is returned untouched (the per-key bucket is not consulted, not even
created); on global admit the per-key bucket for the extracted key (or
`"unknown"`) is evaluated with the same protocol and the "(per-ip)" body;
and a per-key denial never refunds the global token: the global bucket ends
in exactly the state `global.allow now` left it, identical to the
fully-admitted case. -/
theorem rateLimit_composition (global : TokenBucket) (perIP : PerKeyTokenBucket)
    (ip : String) (now : ℚ) :
    ((global.allow now).admitted = false →
      WithRateLimit global perIP ip now =
        { reply := some ⟨429, some "1", "rate limit exceeded (global)"⟩
          global := (global.allow now).bucket
          perIP := perIP }) ∧
    ((global.allow now).admitted = true →
      (WithRateLimit global perIP ip now).global = (global.allow now).bucket ∧
      (WithRateLimit global perIP ip now).perIP =
        (perIP.allow (if ip = "" then "unknown" else ip) now).2 ∧
      ((perIP.allow (if ip = "" then "unknown" else ip) now).1 = false →
        (WithRateLimit global perIP ip now).reply =
          some ⟨429, some "1", "rate limit exceeded (per-ip)"⟩) ∧
      ((perIP.allow (if ip = "" then "unknown" else ip) now).1 = true →
        (WithRateLimit global perIP ip now).reply = none)) := by
  constructor
  · intro h
    simp [WithRateLimit, h]
  · intro h
    by_cases hp : (perIP.allow (if ip = "" then "unknown" else ip) now).1 = true
    · refine ⟨?_, ?_, ?_, ?_⟩ <;> simp [WithRateLimit, h, hp]
    · have hp' : (perIP.allow (if ip = "" then "unknown" else ip) now).1 = false :=
        Bool.eq_false_iff.2 hp
      refine ⟨?_, ?_, ?_, ?_⟩ <;> simp [WithRateLimit, h, hp']

/-- Witness for C3 at concrete inputs: a drained global bucket denies (and
the per-key map is untouched); a fresh global bucket admits and a fresh
per-key bucket admits too (reply `none`). -/
theorem rateLimit_composition_witness :
    (((⟨1, 1, 0, 0, 0, 0⟩ : TokenBucket).allow 0).admitted = false ∧
      WithRateLimit ⟨1, 1, 0, 0, 0, 0⟩ ⟨[], 1, 1, 0⟩ "1.2.3.4" 0 =
        { reply := some ⟨429, some "1", "rate limit exceeded (global)"⟩
          global := ((⟨1, 1, 0, 0, 0, 0⟩ : TokenBucket).allow 0).bucket
          perIP := ⟨[], 1, 1, 0⟩ }) ∧
    (((NewTokenBucket 1 1 0 0).allow 0).admitted = true ∧
      (WithRateLimit (NewTokenBucket 1 1 0 0) ⟨[], 1, 1, 0⟩ "1.2.3.4" 0).reply = none) := by
  have h1 := rateLimit_composition ⟨1, 1, 0, 0, 0, 0⟩ ⟨[], 1, 1, 0⟩ "1.2.3.4" 0
  have h2 := rateLimit_composition (NewTokenBucket 1 1 0 0) ⟨[], 1, 1, 0⟩ "1.2.3.4" 0
  have hden : ((⟨1, 1, 0, 0, 0, 0⟩ : TokenBucket).allow 0).admitted = false := by
    rw [allow_of_nonpos (⟨1, 1, 0, 0, 0, 0⟩ : TokenBucket) 0 (le_refl 0)]
    norm_num
  have hadm : ((NewTokenBucket 1 1 0 0).allow 0).admitted = true := by
    rw [allow_of_nonpos (NewTokenBucket 1 1 0 0) 0 (by norm_num [NewTokenBucket])]
    norm_num [NewTokenBucket]
  have hperk :
      ((⟨[], 1, 1, 0⟩ : PerKeyTokenBucket).allow
        (if "1.2.3.4" = "" then "unknown" else "1.2.3.4") 0).1 = true := by
    have hlook : (([] : List (String × TokenBucket)).lookup
        (if "1.2.3.4" = "" then "unknown" else "1.2.3.4")) = none := rfl
    simp only [PerKeyTokenBucket.allow, hlook]
    exact hadm
  exact ⟨⟨hden, h1.1 hden⟩, ⟨hadm, ((h2.2 hadm).2.2.2) hperk⟩⟩

/-! ## Claims about the concurrency gate -/

theorem semValid_append (cap : ℕ) :
    ∀ (pre : List SemOp) (n : ℕ) (post : List SemOp),
      semValid cap n (pre ++ post) = true → semValid cap n pre = true := by
  intro pre
  induction pre with
  | nil => intro n post _; rfl
  | cons op rest ih =>
    intro n post h
    cases op with
    | acq =>
      rw [List.cons_append, semValid] at h
      rw [semValid]
      simp only [Bool.and_eq_true] at h ⊢
      exact ⟨h.1, ih _ _ h.2⟩
    | rel =>
      rw [List.cons_append, semValid] at h
      rw [semValid]
      exact ih _ _ h
    | cancelled =>
      rw [List.cons_append, semValid] at h
      rw [semValid]
      exact ih _ _ h

theorem semValid_foldl_le (cap : ℕ) :
    ∀ (ops : List SemOp) (n : ℕ), n ≤ cap → semValid cap n ops = true →
      ops.foldl semStep n ≤ cap := by
  intro ops
  induction ops with
  | nil => intro n h _; simpa using h
  | cons op rest ih =>
    intro n h hv
    cases op with
    | acq =>
      rw [semValid] at hv
      simp only [Bool.and_eq_true, decide_eq_true_eq] at hv
      rw [List.foldl_cons]
      exact ih (semStep n .acq) (by simp [semStep]; omega) hv.2
    | rel =>
      rw [semValid] at hv
      rw [List.foldl_cons]
      exact ih (semStep n .rel) (by simp [semStep]; omega) hv
    | cancelled =>
      rw [semValid] at hv
      rw [List.foldl_cons]
      exact ih (semStep n .cancelled) (by simpa [semStep] using h) hv

/-- C9: the semaphore capacity is clamped to at least 1; under the buffered
channel's semantics (a completed acquire requires free space) the in-flight
count never exceeds the capacity after any point of any valid schedule; a
request that acquires contributes exactly one acquire and one release —
whether the inner handler returns normally or panics — and enters the inner
handler; a request cancelled before acquiring receives 408 "request
cancelled" without entering the inner handler and touches the channel not
at all. -/
theorem throttle_semaphore_spec (m : ℤ) (cap : ℕ) (ops pre post : List SemOp)
    (h : HandlerOutcome) :
    1 ≤ NewSemaphoreCap m ∧
    (semValid cap 0 ops = true → ops = pre ++ post → semCount pre ≤ cap) ∧
    ((WithThrottle true h).ops = [.acq, .rel] ∧
      (WithThrottle true h).ops.count SemOp.acq = 1 ∧
      (WithThrottle true h).ops.count SemOp.rel = 1 ∧
      (WithThrottle true h).entered = true ∧
      (WithThrottle true h).reply = none) ∧
    ((WithThrottle false h).reply = some ⟨408, none, "request cancelled"⟩ ∧
      (WithThrottle false h).entered = false ∧
      (WithThrottle false h).ops.count SemOp.acq = 0 ∧
      (WithThrottle false h).ops.count SemOp.rel = 0) := by
  refine ⟨?_, ?_, ?_, ?_⟩
  · unfold NewSemaphoreCap
    split_ifs with hc
    · exact le_refl 1
    · omega
  · intro hv heq
    rw [heq] at hv
    have hvpre := semValid_append cap pre 0 post hv
    exact semValid_foldl_le cap pre 0 (Nat.zero_le cap) hvpre
  · cases h <;> simp [WithThrottle, List.count_cons]
  · cases h <;> simp [WithThrottle, List.count_cons]

/-- Witness for C9 at concrete inputs. -/
theorem throttle_semaphore_spec_witness :
    1 ≤ NewSemaphoreCap 0 ∧
      semValid 1 0 [SemOp.acq, SemOp.rel, SemOp.acq] = true ∧
      [SemOp.acq, SemOp.rel, SemOp.acq] = [SemOp.acq] ++ [SemOp.rel, SemOp.acq] ∧
      semCount [SemOp.acq] ≤ 1 := by
  have h := throttle_semaphore_spec 0 1 [SemOp.acq, SemOp.rel, SemOp.acq]
    [SemOp.acq] [SemOp.rel, SemOp.acq] HandlerOutcome.normal
  exact ⟨h.1, by decide, by decide, h.2.1 (by decide) (by decide)⟩

/-! ## Claims about the gzip stage -/

/-- C8, counterexample: `Accept-Encoding: notgzip` does not contain the
token `gzip`, yet the stage activates (the source tests for a substring):
it emits the gzip header operations and the encoder close instead of
running the handler against the original writer. -/
theorem gzip_token_iff_fails :
    specContainsTokenGzip "notgzip" = false ∧
      WithGzip "notgzip" [] =
        [.setHeader "Content-Encoding" "gzip", .delHeader "Content-Length", .gzClose] := by
  exact ⟨by decide, by decide⟩

/-- C8 (amended): the gzip stage is active iff the `Accept-Encoding` value
contains `"gzip"` as a substring (the source's `strings.Contains`, weaker
than token membership). When active it sets `Content-Encoding: gzip` and
deletes `Content-Length` before the handler runs, routes every handler
write through the gzip encoder (no raw write reaches the underlying
writer), passes `WriteHeader` through unmodified, and closes (flushes) the
encoder after the handler returns; when inactive the inner handler runs
against the original writer and no header operation, encoder write, or
encoder close occurs. -/
theorem gzip_stage_spec (ae : String) (handler : List HAction) :
    (acceptsGzipSubstr ae = true →
      WithGzip ae handler =
        [.setHeader "Content-Encoding" "gzip", .delHeader "Content-Length"]
          ++ handler.map (interpAction true) ++ [.gzClose] ∧
      (∀ bs : List ℕ, WEvent.rawWrite bs ∉ WithGzip ae handler) ∧
      (∀ bs : List ℕ, HAction.write bs ∈ handler → WEvent.gzWrite bs ∈ WithGzip ae handler) ∧
      (∀ code : ℕ, HAction.writeHeader code ∈ handler →
        WEvent.writeHeader code ∈ WithGzip ae handler)) ∧
    (acceptsGzipSubstr ae = false →
      WithGzip ae handler = handler.map (interpAction false) ∧
      (∀ k v : String, WEvent.setHeader k v ∉ WithGzip ae handler) ∧
      (∀ k : String, WEvent.delHeader k ∉ WithGzip ae handler) ∧
      (∀ bs : List ℕ, WEvent.gzWrite bs ∉ WithGzip ae handler) ∧
      WEvent.gzClose ∉ WithGzip ae handler) := by
  constructor
  · intro hact
    have hgz : WithGzip ae handler =
        [.setHeader "Content-Encoding" "gzip", .delHeader "Content-Length"]
          ++ handler.map (interpAction true) ++ [.gzClose] := by
      unfold WithGzip
      rw [hact]
      rfl
    refine ⟨hgz, ?_, ?_, ?_⟩
    · intro bs hmem
      rw [hgz] at hmem
      simp only [List.mem_append, List.mem_cons, List.mem_singleton, List.mem_map] at hmem
      rcases hmem with ((h1 | h1 | h1) | ⟨act, _, h1⟩) | h1 <;>
        first
          | exact absurd h1 (by simp)
          | { cases act with
              | write bs2 => simp only [interpAction] at h1; exact absurd h1 (by simp)
              | writeHeader code => simp only [interpAction] at h1; exact absurd h1 (by simp) }
    · intro bs hmem
      rw [hgz]
      simp only [List.mem_append, List.mem_map]
      exact Or.inl (Or.inr ⟨HAction.write bs, hmem, by simp [interpAction]⟩)
    · intro code hmem
      rw [hgz]
      simp only [List.mem_append, List.mem_map]
      exact Or.inl (Or.inr ⟨HAction.writeHeader code, hmem, by simp [interpAction]⟩)
  · intro hina
    have hgz : WithGzip ae handler = handler.map (interpAction false) := by
      unfold WithGzip
      rw [hina]
      rfl
    refine ⟨hgz, ?_, ?_, ?_, ?_⟩
    · intro k v hmem
      rw [hgz] at hmem
      rcases List.mem_map.1 hmem with ⟨act, _, h1⟩
      cases act with
      | write bs2 => simp only [interpAction] at h1; exact absurd h1 (by simp)
      | writeHeader code => simp only [interpAction] at h1; exact absurd h1 (by simp)
    · intro k hmem
      rw [hgz] at hmem
      rcases List.mem_map.1 hmem with ⟨act, _, h1⟩
      cases act with
      | write bs2 => simp only [interpAction] at h1; exact absurd h1 (by simp)
      | writeHeader code => simp only [interpAction] at h1; exact absurd h1 (by simp)
    · intro bs hmem
      rw [hgz] at hmem
      rcases List.mem_map.1 hmem with ⟨act, _, h1⟩
      cases act with
      | write bs2 => simp only [interpAction] at h1; exact absurd h1 (by simp)
      | writeHeader code => simp only [interpAction] at h1; exact absurd h1 (by simp)
    · intro hmem
      rw [hgz] at hmem
      rcases List.mem_map.1 hmem with ⟨act, _, h1⟩
      cases act with
      | write bs2 => simp only [interpAction] at h1; exact absurd h1 (by simp)
      | writeHeader code => simp only [interpAction] at h1; exact absurd h1 (by simp)

/-- Witness for the amended C8 at concrete inputs. -/
theorem gzip_stage_spec_witness :
    acceptsGzipSubstr "gzip, deflate" = true ∧
      WithGzip "gzip, deflate" [HAction.writeHeader 200, HAction.write [7]] =
        [.setHeader "Content-Encoding" "gzip", .delHeader "Content-Length"]
          ++ [HAction.writeHeader 200, HAction.write [7]].map (interpAction true)
          ++ [.gzClose] ∧
      acceptsGzipSubstr "identity" = false ∧
      WithGzip "identity" [HAction.write [7]] =
        [HAction.write [7]].map (interpAction false) := by
  have h1 := gzip_stage_spec "gzip, deflate" [HAction.writeHeader 200, HAction.write [7]]
  have h2 := gzip_stage_spec "identity" [HAction.write [7]]
  exact ⟨by decide, (h1.1 (by decide)).1, by decide, (h2.2 (by decide)).1⟩

/-! ## Claims about the retrying transport -/

theorem clampAttempts_pos (attemptsCfg : ℤ) : 1 ≤ clampAttempts attemptsCfg := by
  unfold clampAttempts
  split_ifs with h
  · exact le_refl 1
  · omega

theorem rtLoop_not_canRetry (needsGetBody : Bool) (inner : ℕ → RTOutcome)
    (attempts i k : ℕ) :
    rtLoop false needsGetBody true inner attempts i (k + 1) =
      (match inner i with
        | .failure => RTResult.err i
        | .response s => RTResult.resp i s,
       [RTEvent.invoke i]) := by
  rw [rtLoop]
  rw [if_neg (by simp)]
  cases hi : inner i with
  | failure =>
    dsimp only
    rw [if_pos (Or.inl (by simp))]
  | response s =>
    dsimp only
    rw [if_neg (by simp)]

theorem roundTrip_not_idempotent (attemptsCfg : ℤ) (req : Request)
    (inner : ℕ → RTOutcome) (hm : isIdempotent req.method = false)
    (hgb : req.getBodyOk = true) :
    RoundTrip attemptsCfg req inner =
      (match inner 0 with
        | .failure => RTResult.err 0
        | .response s => RTResult.resp 0 s,
       [RTEvent.invoke 0]) := by
  obtain ⟨k, hk⟩ : ∃ k, clampAttempts attemptsCfg = k + 1 :=
    ⟨clampAttempts attemptsCfg - 1, by have := clampAttempts_pos attemptsCfg; omega⟩
  simp only [RoundTrip]
  by_cases hearly :
      (¬ (isIdempotent req.method = true) ∧ ¬ (req.hasGetBody = true) ∧ req.hasBody = true)
  · rw [if_pos hearly]
  · rw [if_neg hearly, hm, hgb, hk]
    exact rtLoop_not_canRetry (req.hasBody && req.hasGetBody) inner (k + 1) 0 k

/-- C1, counterexample: a GET request with a non-replayable body (`Body`
present, `GetBody` absent) is not retry-eligible by the claim's definition,
yet the code — whose `canRetry` looks only at the method — invokes the inner
transport twice when the first attempt fails and `attempts = 2`. -/
theorem retry_eligibility_fails :
    specEligible ⟨"GET", true, false, true⟩ = false ∧
      countInvokes (RoundTrip 2 ⟨"GET", true, false, true⟩ fun _ => RTOutcome.failure).2 = 2 := by
  exact ⟨by decide, by decide⟩

/-- C1 (amended): the code's retry eligibility (`canRetry`) is
`isIdempotent(method)` alone; every request with a non-idempotent method —
provided its body-replay factory, when consulted, succeeds — has the inner
transport invoked exactly once, and attempt 0's response or error is
returned unchanged. -/
theorem non_idempotent_forwarded_once (attemptsCfg : ℤ) (req : Request)
    (inner : ℕ → RTOutcome) (hm : isIdempotent req.method = false)
    (hgb : req.getBodyOk = true) :
    countInvokes (RoundTrip attemptsCfg req inner).2 = 1 ∧
      (RoundTrip attemptsCfg req inner).1 =
        (match inner 0 with
          | .failure => RTResult.err 0
          | .response s => RTResult.resp 0 s) := by
  rw [roundTrip_not_idempotent attemptsCfg req inner hm hgb]
  exact ⟨rfl, rfl⟩

/-- Witness for the amended C1 at concrete inputs. -/
theorem non_idempotent_forwarded_once_witness :
    isIdempotent "POST" = false ∧
      countInvokes (RoundTrip 3 ⟨"POST", true, true, true⟩ fun _ => RTOutcome.response 503).2 = 1 ∧
      (RoundTrip 3 ⟨"POST", true, true, true⟩ fun _ => RTOutcome.response 503).1 =
        RTResult.resp 0 503 := by
  have h := non_idempotent_forwarded_once 3 ⟨"POST", true, true, true⟩
    (fun _ => RTOutcome.response 503) (by decide) rfl
  exact ⟨by decide, h.1, h.2⟩

theorem rtLoop_all_5xx (needsGetBody : Bool) (inner : ℕ → RTOutcome) (st : ℕ → ℕ)
    (attempts : ℕ) :
    ∀ (fuel i : ℕ), i + fuel = attempts → 1 ≤ fuel →
      (∀ j, i ≤ j → j < attempts → inner j = RTOutcome.response (st j) ∧
        500 ≤ st j ∧ st j ≤ 599) →
      rtLoop true needsGetBody true inner attempts i fuel =
        (RTResult.resp (attempts - 1) (st (attempts - 1)), retryTrace5xx i fuel) := by
  intro fuel
  induction fuel with
  | zero => intro i _ h1 _; exact absurd h1 (by omega)
  | succ k ih =>
    intro i hik h1 hresp
    have hj := hresp i (le_refl i) (by omega)
    rcases Nat.eq_zero_or_pos k with rfl | hk
    · have hi : i = attempts - 1 := by omega
      rw [rtLoop, if_neg (by simp), hj.1]
      dsimp only
      have hnot : ¬ (500 ≤ st i ∧ st i ≤ 599 ∧ true = true ∧ i < attempts - 1) :=
        fun hcon => absurd hcon.2.2.2 (by omega)
      rw [if_neg hnot, hi]
      simp [retryTrace5xx]
    · obtain ⟨k2, rfl⟩ : ∃ k2, k = k2 + 1 := ⟨k - 1, by omega⟩
      rw [rtLoop, if_neg (by simp), hj.1]
      dsimp only
      have hcond : 500 ≤ st i ∧ st i ≤ 599 ∧ true = true ∧ i < attempts - 1 :=
        ⟨hj.2.1, hj.2.2, rfl, by omega⟩
      rw [if_pos hcond]
      rw [ih (i + 1) (by omega) (by omega) (fun j hjl hju => hresp j (by omega) hju)]
      simp [retryTrace5xx]

/-- C2, counterexample: a PUT with a non-replayable body is not
retry-eligible by the claim's (and C1's) definition, so its 5xx at attempt
0 of 2 should be returned as-is — but the code (eligibility = method only)
drains, closes, sleeps, and retries, returning attempt 1's 200 response
instead. -/
theorem early5xx_not_returned_as_is :
    specEligible ⟨"PUT", true, false, true⟩ = false ∧
      RoundTrip 2 ⟨"PUT", true, false, true⟩
          (fun i => if i = 0 then RTOutcome.response 500 else RTOutcome.response 200) =
        (RTResult.resp 1 200,
         [.invoke 0, .drainBody 0, .closeBody 0, .sleep 0, .invoke 1]) := by
  exact ⟨by decide, by decide⟩

/-- C2 (amended): with the code's eligibility (`canRetry`, the idempotent
method check): whenever the method is idempotent (body replay succeeding)
and every attempt of the loop yields a 5xx response, each non-final attempt
is invoked, its body drained then closed, and the backoff slept — in that
order — before the next attempt, and the caller receives the final
attempt's 5xx response (never a synthesized error); a 5xx reaching a
non-idempotent request is returned to the caller as-is after the single
invocation. -/
theorem retry_5xx_spec (attemptsCfg : ℤ) (req : Request) (inner : ℕ → RTOutcome)
    (st : ℕ → ℕ) (s : ℕ) :
    (isIdempotent req.method = true → req.getBodyOk = true →
      (∀ j, j < clampAttempts attemptsCfg → inner j = RTOutcome.response (st j) ∧
        500 ≤ st j ∧ st j ≤ 599) →
      RoundTrip attemptsCfg req inner =
        (RTResult.resp (clampAttempts attemptsCfg - 1) (st (clampAttempts attemptsCfg - 1)),
         retryTrace5xx 0 (clampAttempts attemptsCfg))) ∧
    (isIdempotent req.method = false → req.getBodyOk = true →
      inner 0 = RTOutcome.response s →
      RoundTrip attemptsCfg req inner = (RTResult.resp 0 s, [RTEvent.invoke 0])) := by
  constructor
  · intro hm hgb hresp
    simp only [RoundTrip]
    rw [if_neg (fun hcon => hcon.1 hm), hm, hgb]
    exact rtLoop_all_5xx (req.hasBody && req.hasGetBody) inner st (clampAttempts attemptsCfg)
      (clampAttempts attemptsCfg) 0 (by omega) (clampAttempts_pos attemptsCfg)
      (fun j _ hju => hresp j hju)
  · intro hm hgb hr
    rw [roundTrip_not_idempotent attemptsCfg req inner hm hgb, hr]

/-- Witness for the amended C2 at concrete inputs. -/
theorem retry_5xx_spec_witness :
    isIdempotent "GET" = true ∧ (500:ℕ) ≤ 503 ∧ (503:ℕ) ≤ 599 ∧
      RoundTrip 3 ⟨"GET", false, false, true⟩ (fun _ => RTOutcome.response 503) =
        (RTResult.resp 2 503,
         [.invoke 0, .drainBody 0, .closeBody 0, .sleep 0,
          .invoke 1, .drainBody 1, .closeBody 1, .sleep 1, .invoke 2]) ∧
      RoundTrip 1 ⟨"POST", false, false, true⟩ (fun _ => RTOutcome.response 502) =
        (RTResult.resp 0 502, [RTEvent.invoke 0]) := by
  have h1 := (retry_5xx_spec 3 ⟨"GET", false, false, true⟩ (fun _ => RTOutcome.response 503)
    (fun _ => 503) 0).1 (by decide) rfl (fun j _ => ⟨rfl, by norm_num, by norm_num⟩)
  have h2 := (retry_5xx_spec 1 ⟨"POST", false, false, true⟩ (fun _ => RTOutcome.response 502)
    (fun _ => 502) 502).2 (by decide) rfl rfl
  exact ⟨by decide, by norm_num, by norm_num, h1, h2⟩

/-! ## Claim about the backoff -/

/-- C7: for every attempt index and positive configured bounds, the backoff
delay is exactly `min(max_backoff, base_backoff * 2^i)`; the wait never
exceeds that delay, and a cancellation arriving strictly before the timer
ends the wait at the cancellation instant — strictly earlier than the full
delay. -/
theorem backoff_delay_and_cancellation (baseDelay maxDelay : ℤ) (i : ℕ) (tc : ℤ)
    (hbase : 0 < baseDelay) (hmax : 0 < maxDelay) :
    sleepDelay baseDelay maxDelay i = min maxDelay (baseDelay * 2 ^ i) ∧
    (∀ cancelAt : Option ℤ,
      sleepWaited cancelAt baseDelay maxDelay i ≤ sleepDelay baseDelay maxDelay i) ∧
    (0 ≤ tc → tc < sleepDelay baseDelay maxDelay i →
      sleepWaited (some tc) baseDelay maxDelay i = tc ∧
      sleepWaited (some tc) baseDelay maxDelay i < sleepDelay baseDelay maxDelay i) := by
  have hd : sleepDelay baseDelay maxDelay i = min maxDelay (baseDelay * 2 ^ i) := by
    simp only [sleepDelay]
    rw [if_neg (not_le.2 hbase), if_neg (not_le.2 hmax)]
    rcases le_or_lt (baseDelay * 2 ^ i) maxDelay with h | h
    · rw [if_neg (not_lt.2 h), min_eq_right h]
    · rw [if_pos h, min_eq_left (le_of_lt h)]
  refine ⟨hd, ?_, ?_⟩
  · intro cancelAt
    cases cancelAt with
    | none => exact le_refl _
    | some tc2 => exact min_le_right _ _
  · intro h0 hlt
    have hw : sleepWaited (some tc) baseDelay maxDelay i = tc := by
      simp only [sleepWaited]
      rw [max_eq_left h0, min_eq_left (le_of_lt hlt)]
    exact ⟨hw, by rw [hw]; exact hlt⟩

/-- Witness for C7 at concrete inputs. -/
theorem backoff_delay_and_cancellation_witness :
    (0:ℤ) < 150000000 ∧ (0:ℤ) < 1500000000 ∧
      sleepDelay 150000000 1500000000 2 = min 1500000000 (150000000 * 2 ^ 2) ∧
      (0:ℤ) ≤ 7 ∧ (7:ℤ) < sleepDelay 150000000 1500000000 2 ∧
      sleepWaited (some 7) 150000000 1500000000 2 = 7 := by
  have h := backoff_delay_and_cancellation 150000000 1500000000 2 7
    (by norm_num) (by norm_num)
  have hlt : (7:ℤ) < sleepDelay 150000000 1500000000 2 := by
    rw [h.1]; norm_num
  exact ⟨by norm_num, by norm_num, h.1, by norm_num, hlt, (h.2.2 (by norm_num) hlt).1⟩

end Canary
